import Mathlib

/-!
Shallow embedding of `custom-tools/brute-forcing/bruteforce.py`.

The program spawns a `ThreadPoolExecutor` with 10 workers, submits one
`try_password` task per entry of `password_list`, and stops as soon as one
task claims the shared `found_password` flag.  We model one run of
`BruteForcer.run` as a small-step interleaving semantics: the shared object
(`found_password`, `correct_password`, the printed output) plus one phase
machine per submitted task.  Every region of code executed under
`self.lock` (the claim at lines 34-39, the guarded print in `log` at lines
21-23) is a single atomic step; the unlocked read at line 26 and the
network call at line 31 are their own steps, so steps of distinct workers
interleave freely, exactly as threads do.

The remote oracle (`requests.post` + the `"Invalid" not in response.text`
test) is an external collaborator; it is modelled as a function from a
candidate to a tri-state `Outcome`, and a raised exception is the
`Outcome.error` case (caught at line 42).
-/

namespace BruteForce

/-- Line 7 of bruteforce.py: the target URL (opaque data for the model). -/
def url : String := "http://python.thm/labs/lab1/index.php"

/-- Line 8 of bruteforce.py: the fixed username. -/
def username : String := "Mark"

/-- Python's `string.ascii_uppercase`. -/
def ascii_uppercase : List Char := "ABCDEFGHIJKLMNOPQRSTUVWXYZ".toList

/-- Python's format spec 03 at line 11: decimal rendering zero-padded to width 3. -/
def pad3 (n : Nat) : String :=
  if n < 10 then "00" ++ toString n
  else if n < 100 then "0" ++ toString n
  else toString n

/-- Line 11 of bruteforce.py: the comprehension over
`product(range(1000), string.ascii_uppercase)` whose entries render the
number zero-padded to width 3 followed by the letter.  `itertools.product`
iterates the second factor fastest, which is what the inner `map` does. -/
def password_list : List String :=
  ((List.range 1000).map fun num =>
    ascii_uppercase.map fun char => pad3 num ++ char.toString).flatten

/-- Result of one oracle invocation for one candidate, as classified by
lines 31-43: the POST succeeded and the page lacks "Invalid" (`success`),
the POST succeeded and the page contains "Invalid" (`rejected`), or the
invocation raised an exception with message `e` (`error e`). -/
inductive Outcome where
  | success : Outcome
  | rejected : Outcome
  | error : String → Outcome
deriving DecidableEq

/-- One line printed by the program.  `render` below gives the exact text. -/
inductive LogLine where
  | win : String → String → LogLine
  | attempt : String → LogLine
  | errorWith : String → String → LogLine
deriving DecidableEq

/-- The f-strings at lines 38, 41 and 43 of bruteforce.py. -/
def LogLine.render : LogLine → String
  | .win u p => "[+] Found valid credentials: " ++ u ++ ":" ++ p
  | .attempt p => "[-] Attempted: " ++ p
  | .errorWith p e => "Error with " ++ p ++ ": " ++ e

/-- Is this line the winning report (line 38)? -/
def LogLine.isWin : LogLine → Bool
  | .win _ _ => true
  | _ => false

/-- Control position of one submitted `try_password` task.
`notStarted`: future queued, not yet picked up by a pool thread.
`started`: a pool thread entered `try_password`, about to execute line 26.
`inOracle`: the `requests.post` call of line 31 is in flight.
`gotOutcome o`: the oracle returned `o`; the task is between the response
and the corresponding handler (lock not yet taken).
`done r inv`: `try_password` returned `r`; `inv` records whether this task
ever issued its oracle call (ghost information for counting invocations).
`cancelled`: `future.cancel()` (line 53) succeeded before the task started. -/
inductive Phase where
  | notStarted : Phase
  | started : Phase
  | inOracle : Phase
  | gotOutcome : Outcome → Phase
  | done : Bool → Bool → Phase
  | cancelled : Phase
deriving DecidableEq

/-- Does the task occupy a pool thread right now? -/
def Phase.isActive : Phase → Bool
  | .started | .inOracle | .gotOutcome _ => true
  | _ => false

/-- Has the task issued its oracle call (line 31) at some point? -/
def Phase.invoked : Phase → Bool
  | .inOracle => true
  | .gotOutcome _ => true
  | .done _ inv => inv
  | _ => false

/-- Has the future completed or been cancelled (what `as_completed` waits for)? -/
def Phase.isFinished : Phase → Bool
  | .done _ _ => true
  | .cancelled => true
  | _ => false

/-- State of one run of `BruteForcer.run`:
the `BruteForcer` object fields `found_password` and `correct_password`
(lines 15, 17), how many futures the comprehension at line 48 has submitted
so far, the per-task phases, a ghost per-task count of oracle invocations,
and the sequence of printed lines. -/
structure RunState where
  found_password : Bool
  correct_password : Option String
  submitted : Nat
  phases : List Phase
  counts : List Nat
  output : List LogLine
deriving DecidableEq

/-- The state when `run` begins: flag down, no winner, nothing submitted,
every task pending, no oracle call made, nothing printed. -/
def initState (cands : List String) : RunState :=
  { found_password := false
    correct_password := none
    submitted := 0
    phases := cands.map fun _ => Phase.notStarted
    counts := cands.map fun _ => 0
    output := [] }

/-- Number of tasks currently occupying a pool thread. -/
def activeCount (ps : List Phase) : Nat := ps.countP Phase.isActive

/-- Number of oracle calls currently in flight. -/
def inOracleCount (ps : List Phase) : Nat := ps.countP fun p => p = Phase.inOracle

/-- One atomic step of the interleaved execution of `BruteForcer.run` with
oracle `oracle`, pool bound `maxW` and candidate list `cands`.

* `submit`: the list comprehension at line 48 submits the next future.  It
  is guarded by nothing but the list not being exhausted: in particular it
  does not consult `found_password`.
* `start`: the executor hands a queued future to a free thread; only
  already-submitted futures can start, and at most `maxW` run at once.
* `earlyReturn`: line 26 reads `found_password` as true, line 27 returns
  `False`; the oracle is not called (`invoked` stays false).
* `beginOracle`: line 26 reads `found_password` as false, the task falls
  through and issues the POST of line 31 (ghost count incremented).
* `endOracle`: the POST returns and lines 31-33/40/42 classify it.
* `claimWin`: lines 34-39 under the lock with the flag still down: set the
  flag, record the winner, print the winning line, return `True`.
* `claimLost`: lines 34-35 under the lock with the flag already up: the
  body is skipped and control falls to `return False` (line 44).
* `logAttempt` / `logError`: lines 41/43 call `log`, which under the same
  lock prints only while the flag is down (lines 21-23), then line 44
  returns `False`.
* `cancel`: lines 51-53: once the main thread observes `found_password`,
  it cancels the futures; only a not-yet-started future can be cancelled,
  and the observing loop runs only after the comprehension finished. -/
inductive Step (oracle : String → Outcome) (maxW : Nat) (cands : List String) :
    RunState → RunState → Prop where
  | submit (s t : RunState) :
      s.submitted < cands.length →
      t = { s with submitted := s.submitted + 1 } →
      Step oracle maxW cands s t
  | start (s t : RunState) (i : Nat) :
      i < s.submitted →
      s.phases[i]? = some Phase.notStarted →
      activeCount s.phases < maxW →
      t = { s with phases := s.phases.set i Phase.started } →
      Step oracle maxW cands s t
  | earlyReturn (s t : RunState) (i : Nat) :
      s.phases[i]? = some Phase.started →
      s.found_password = true →
      t = { s with phases := s.phases.set i (Phase.done false false) } →
      Step oracle maxW cands s t
  | beginOracle (s t : RunState) (i : Nat) :
      s.phases[i]? = some Phase.started →
      s.found_password = false →
      t = { s with phases := s.phases.set i Phase.inOracle
                   counts := s.counts.set i (s.counts.getD i 0 + 1) } →
      Step oracle maxW cands s t
  | endOracle (s t : RunState) (i : Nat) (p : String) :
      s.phases[i]? = some Phase.inOracle →
      cands[i]? = some p →
      t = { s with phases := s.phases.set i (Phase.gotOutcome (oracle p)) } →
      Step oracle maxW cands s t
  | claimWin (s t : RunState) (i : Nat) (p : String) :
      s.phases[i]? = some (Phase.gotOutcome Outcome.success) →
      cands[i]? = some p →
      s.found_password = false →
      t = { s with found_password := true
                   correct_password := some p
                   output := s.output ++ [LogLine.win username p]
                   phases := s.phases.set i (Phase.done true true) } →
      Step oracle maxW cands s t
  | claimLost (s t : RunState) (i : Nat) :
      s.phases[i]? = some (Phase.gotOutcome Outcome.success) →
      s.found_password = true →
      t = { s with phases := s.phases.set i (Phase.done false true) } →
      Step oracle maxW cands s t
  | logAttempt (s t : RunState) (i : Nat) (p : String) :
      s.phases[i]? = some (Phase.gotOutcome Outcome.rejected) →
      cands[i]? = some p →
      t = { s with output :=
                     s.output ++ (if s.found_password then [] else [LogLine.attempt p])
                   phases := s.phases.set i (Phase.done false true) } →
      Step oracle maxW cands s t
  | logError (s t : RunState) (i : Nat) (p e : String) :
      s.phases[i]? = some (Phase.gotOutcome (Outcome.error e)) →
      cands[i]? = some p →
      t = { s with output :=
                     s.output ++ (if s.found_password then [] else [LogLine.errorWith p e])
                   phases := s.phases.set i (Phase.done false true) } →
      Step oracle maxW cands s t
  | cancel (s t : RunState) (i : Nat) :
      s.submitted = cands.length →
      s.found_password = true →
      s.phases[i]? = some Phase.notStarted →
      t = { s with phases := s.phases.set i Phase.cancelled } →
      Step oracle maxW cands s t

/-- Zero or more steps. -/
def Steps (oracle : String → Outcome) (maxW : Nat) (cands : List String) :
    RunState → RunState → Prop :=
  Relation.ReflTransGen (Step oracle maxW cands)

/-- The states one run of `BruteForcer.run` can reach. -/
def Reachable (oracle : String → Outcome) (maxW : Nat) (cands : List String)
    (s : RunState) : Prop :=
  Steps oracle maxW cands (initState cands) s

/-- The run is over: every future has completed or been cancelled, so the
`as_completed` loop (line 50) and `shutdown` can return. -/
def Finished (s : RunState) : Prop := s.phases.all Phase.isFinished = true

/-- Line 47 of bruteforce.py: `ThreadPoolExecutor(max_workers=10)`. -/
def max_workers : Nat := 10

/-- Remaining-work weight of one task, for termination. -/
def Phase.weight : Phase → Nat
  | .notStarted => 4
  | .started => 3
  | .inOracle => 2
  | .gotOutcome _ => 1
  | .done _ _ => 0
  | .cancelled => 0

/-- Termination measure of a run state. -/
def msr (cands : List String) (s : RunState) : Nat :=
  (cands.length - s.submitted) + ((s.phases.map Phase.weight).sum)

/-- Facts that hold in every reachable state of a run. -/
structure Inv (oracle : String → Outcome) (maxW : Nat) (cands : List String)
    (s : RunState) : Prop where
  phases_len : s.phases.length = cands.length
  counts_len : s.counts.length = cands.length
  sub_le : s.submitted ≤ cands.length
  active_le : activeCount s.phases ≤ maxW
  outcome_src : ∀ (i : Nat) (o : Outcome), s.phases[i]? = some (Phase.gotOutcome o) →
    ∃ p, cands[i]? = some p ∧ o = oracle p
  count_flag : ∀ (i : Nat) (ph : Phase), s.phases[i]? = some ph →
    s.counts[i]? = some (if ph.invoked then 1 else 0)
  found_winner : s.found_password = s.correct_password.isSome
  winner_ok : ∀ p, s.correct_password = some p →
    oracle p = Outcome.success ∧ p ∈ cands
  claimant_winner : ∀ (i : Nat) (r : Bool), s.phases[i]? = some (Phase.done true r) →
    r = true ∧ s.found_password = true ∧ s.correct_password = cands[i]?
  claimant_unique : ∀ (i j : Nat) (r r' : Bool), s.phases[i]? = some (Phase.done true r) →
    s.phases[j]? = some (Phase.done true r') → i = j
  early_found : ∀ (i : Nat) (r : Bool), s.phases[i]? = some (Phase.done r false) →
    r = false ∧ s.found_password = true
  lost_found : ∀ (i : Nat) (p : String), s.phases[i]? = some (Phase.done false true) →
    cands[i]? = some p → oracle p = Outcome.success → s.found_password = true
  cancel_found : ∀ (i : Nat), s.phases[i]? = some Phase.cancelled → s.found_password = true
  win_out : s.output.filter LogLine.isWin =
    (match s.correct_password with
     | some p => [LogLine.win username p]
     | none => [])

/-! Concrete scenarios used to witness the theorems below. -/

/-- A two-candidate space; the second candidate is the valid one. -/
def exCands : List String := ["000A", "000B"]

/-- Oracle that accepts exactly "000B". -/
def exOracle : String → Outcome :=
  fun p => if p = "000B" then Outcome.success else Outcome.rejected

/-- Both tasks started; task 1 holds a Success outcome, task 0 still in its POST. -/
def exMid : RunState :=
  { found_password := false
    correct_password := none
    submitted := 2
    phases := [Phase.inOracle, Phase.gotOutcome Outcome.success]
    counts := [1, 1]
    output := [] }

/-- Task 1 has claimed the flag and printed the winning line. -/
def exClaimed : RunState :=
  { found_password := true
    correct_password := some "000B"
    submitted := 2
    phases := [Phase.inOracle, Phase.done true true]
    counts := [1, 1]
    output := [LogLine.win username "000B"] }

/-- Task 0's POST came back Rejected after the claim; its log call was suppressed. -/
def exFinal : RunState :=
  { found_password := true
    correct_password := some "000B"
    submitted := 2
    phases := [Phase.done false true, Phase.done true true]
    counts := [1, 1]
    output := [LogLine.win username "000B"] }

/-- Alternative schedule: task 1 claimed before task 0 was handed a thread,
so task 0 sits at the top of `try_password` with the flag already up. -/
def exLate : RunState :=
  { found_password := true
    correct_password := some "000B"
    submitted := 2
    phases := [Phase.started, Phase.done true true]
    counts := [0, 1]
    output := [LogLine.win username "000B"] }

/-- A two-candidate space with no valid candidate. -/
def bCands : List String := ["AAA", "AAB"]

/-- Oracle that rejects everything. -/
def bOracle : String → Outcome := fun _ => Outcome.rejected

/-- The exhausted run: both candidates tried once, both rejected. -/
def bFinal : RunState :=
  { found_password := false
    correct_password := none
    submitted := 2
    phases := [Phase.done false true, Phase.done false true]
    counts := [1, 1]
    output := [LogLine.attempt "AAA", LogLine.attempt "AAB"] }

/-- A one-candidate space whose oracle call raises. -/
def errCands : List String := ["X"]

/-- Oracle whose invocation always raises an exception rendered "boom". -/
def errOracle : String → Outcome := fun _ => Outcome.error "boom"

/-- The single task has just received the exception from its POST. -/
def errMid : RunState :=
  { found_password := false
    correct_password := none
    submitted := 1
    phases := [Phase.gotOutcome (Outcome.error "boom")]
    counts := [1]
    output := [] }

/-! List bookkeeping lemmas. -/

theorem get_set_self {α : Type} (l : List α) (i : Nat) (a b : α)
    (h : l[i]? = some b) : (l.set i a)[i]? = some a := by
  have hi : i < l.length := by
    rcases List.getElem?_eq_some.mp h with ⟨hl, _⟩
    exact hl
  simp [List.getElem?_set, hi]

theorem get_set_other {α : Type} (l : List α) (i j : Nat) (a : α)
    (h : i ≠ j) : (l.set i a)[j]? = l[j]? := by
  simp [List.getElem?_set, h]

theorem countP_set_balance {α : Type} (q : α → Bool) (l : List α) :
    ∀ (i : Nat) (a b : α), l[i]? = some b →
    (l.set i a).countP q + (if q b then 1 else 0)
      = l.countP q + (if q a then 1 else 0) := by
  induction l with
  | nil => intro i a b h; simp at h
  | cons x xs ih =>
    intro i a b h
    cases i with
    | zero =>
      simp only [List.getElem?_cons_zero, Option.some.injEq] at h
      subst h
      simp only [List.set_cons_zero, List.countP_cons]
      omega
    | succ n =>
      simp only [List.getElem?_cons_succ] at h
      have := ih n a b h
      simp only [List.set_cons_succ, List.countP_cons]
      omega

theorem summap_set_balance {α : Type} (f : α → Nat) (l : List α) :
    ∀ (i : Nat) (a b : α), l[i]? = some b →
    ((l.set i a).map f).sum + f b = (l.map f).sum + f a := by
  induction l with
  | nil => intro i a b h; simp at h
  | cons x xs ih =>
    intro i a b h
    cases i with
    | zero =>
      simp only [List.getElem?_cons_zero, Option.some.injEq] at h
      subst h
      simp only [List.set_cons_zero, List.map_cons, List.sum_cons]
      omega
    | succ n =>
      simp only [List.getElem?_cons_succ] at h
      have := ih n a b h
      simp only [List.set_cons_succ, List.map_cons, List.sum_cons]
      omega

theorem getD_of_getElem? {α : Type} (l : List α) (i : Nat) (a d : α)
    (h : l[i]? = some a) : l.getD i d = a := by
  simp [List.getD, h]

theorem index_of_mem {α : Type} (l : List α) (a : α) (h : a ∈ l) :
    ∃ i : Nat, l[i]? = some a := by
  rcases List.mem_iff_getElem?.mp h with ⟨i, hi⟩
  exact ⟨i, hi⟩

theorem lt_of_getElem?_some {α : Type} (l : List α) (i : Nat) (a : α)
    (h : l[i]? = some a) : i < l.length := by
  rcases List.getElem?_eq_some.mp h with ⟨hl, _⟩
  exact hl

theorem set_cases {α : Type} {l : List α} {i j : Nat} {v w b : α}
    (hold : l[i]? = some b) (h : (l.set i v)[j]? = some w) :
    (j = i ∧ w = v) ∨ (j ≠ i ∧ l[j]? = some w) := by
  by_cases hij : j = i
  · subst hij
    rw [get_set_self l j v b hold] at h
    exact Or.inl ⟨rfl, (Option.some.inj h).symm⟩
  · rw [get_set_other l i j v (fun he => hij he.symm)] at h
    exact Or.inr ⟨hij, h⟩

/-! The invariant holds initially and is preserved by every step. -/

theorem inv_init (oracle : String → Outcome) (maxW : Nat) (cands : List String) :
    Inv oracle maxW cands (initState cands) := by
  refine ⟨?_, ?_, ?_, ?_, ?_, ?_, ?_, ?_, ?_, ?_, ?_, ?_, ?_, ?_⟩
  · simp [initState]
  · simp [initState]
  · simp [initState]
  · simp only [initState, activeCount]
    rw [List.countP_eq_zero.mpr]
    · omega
    · intro a ha
      rcases List.mem_map.mp ha with ⟨c, _, rfl⟩
      simp [Phase.isActive]
  · intro i o h
    simp only [initState, List.getElem?_map] at h
    cases hc : cands[i]? with
    | none => rw [hc] at h; simp at h
    | some p => rw [hc] at h; simp at h
  · intro i ph h
    simp only [initState, List.getElem?_map] at h ⊢
    cases hc : cands[i]? with
    | none => rw [hc] at h; simp at h
    | some p =>
      rw [hc] at h
      simp only [Option.map_some'] at h
      rcases Option.some.inj h with rfl
      simp [Phase.invoked, hc]
  · simp [initState]
  · intro p h; simp [initState] at h
  · intro i r h
    simp only [initState, List.getElem?_map] at h
    cases hc : cands[i]? with
    | none => rw [hc] at h; simp at h
    | some p => rw [hc] at h; simp at h
  · intro i j r r' h h'
    simp only [initState, List.getElem?_map] at h
    cases hc : cands[i]? with
    | none => rw [hc] at h; simp at h
    | some p => rw [hc] at h; simp at h
  · intro i r h
    simp only [initState, List.getElem?_map] at h
    cases hc : cands[i]? with
    | none => rw [hc] at h; simp at h
    | some p => rw [hc] at h; simp at h
  · intro i p h
    simp only [initState, List.getElem?_map] at h
    cases hc : cands[i]? with
    | none => rw [hc] at h; simp at h
    | some q => rw [hc] at h; simp at h
  · intro i h
    simp only [initState, List.getElem?_map] at h
    cases hc : cands[i]? with
    | none => rw [hc] at h; simp at h
    | some p => rw [hc] at h; simp at h
  · simp [initState]

theorem inv_step {oracle : String → Outcome} {maxW : Nat} {cands : List String}
    {s t : RunState} (H : Inv oracle maxW cands s) (hs : Step oracle maxW cands s t) :
    Inv oracle maxW cands t := by
  obtain ⟨len_p, len_c, subl, actl, osrc, cflag, fw, wok, cw, cu, ef, lf, cf, wo⟩ := H
  cases hs with
  | submit hlt heq =>
    subst heq
    exact ⟨len_p, len_c, hlt, actl, osrc, cflag, fw, wok, cw, cu, ef, lf, cf, wo⟩
  | start i hi hph hact heq =>
    subst heq
    refine ⟨?_, len_c, subl, ?_, ?_, ?_, fw, wok, ?_, ?_, ?_, ?_, ?_, wo⟩
    · show (s.phases.set i Phase.started).length = cands.length
      rw [List.length_set]; exact len_p
    · show activeCount (s.phases.set i Phase.started) ≤ maxW
      have hb := countP_set_balance Phase.isActive s.phases i Phase.started
        Phase.notStarted hph
      simp [Phase.isActive] at hb
      simp only [activeCount] at actl hact ⊢
      omega
    · intro j o hj
      rcases set_cases hph hj with ⟨rfl, hv⟩ | ⟨hne, hj'⟩
      · exact Phase.noConfusion hv
      · exact osrc j o hj'
    · intro j ph hj
      rcases set_cases hph hj with ⟨rfl, rfl⟩ | ⟨hne, hj'⟩
      · simpa [Phase.invoked] using cflag _ Phase.notStarted hph
      · exact cflag j ph hj'
    · intro j r hj
      rcases set_cases hph hj with ⟨rfl, hv⟩ | ⟨hne, hj'⟩
      · exact Phase.noConfusion hv
      · exact cw j r hj'
    · intro j k r r' hj hk
      rcases set_cases hph hj with ⟨rfl, hv⟩ | ⟨hnej, hj'⟩
      · exact Phase.noConfusion hv
      · rcases set_cases hph hk with ⟨rfl, hv⟩ | ⟨hnek, hk'⟩
        · exact Phase.noConfusion hv
        · exact cu j k r r' hj' hk'
    · intro j r hj
      rcases set_cases hph hj with ⟨rfl, hv⟩ | ⟨hne, hj'⟩
      · exact Phase.noConfusion hv
      · exact ef j r hj'
    · intro j q hj h1 h2
      rcases set_cases hph hj with ⟨rfl, hv⟩ | ⟨hne, hj'⟩
      · exact Phase.noConfusion hv
      · exact lf j q hj' h1 h2
    · intro j hj
      rcases set_cases hph hj with ⟨rfl, hv⟩ | ⟨hne, hj'⟩
      · exact Phase.noConfusion hv
      · exact cf j hj'
  | earlyReturn i hph hf heq =>
    subst heq
    refine ⟨?_, len_c, subl, ?_, ?_, ?_, fw, wok, ?_, ?_, ?_, ?_, ?_, wo⟩
    · show (s.phases.set i (Phase.done false false)).length = cands.length
      rw [List.length_set]; exact len_p
    · show activeCount (s.phases.set i (Phase.done false false)) ≤ maxW
      have hb := countP_set_balance Phase.isActive s.phases i (Phase.done false false)
        Phase.started hph
      simp [Phase.isActive] at hb
      simp only [activeCount] at actl ⊢
      omega
    · intro j o hj
      rcases set_cases hph hj with ⟨rfl, hv⟩ | ⟨hne, hj'⟩
      · exact Phase.noConfusion hv
      · exact osrc j o hj'
    · intro j ph hj
      rcases set_cases hph hj with ⟨rfl, rfl⟩ | ⟨hne, hj'⟩
      · simpa [Phase.invoked] using cflag _ Phase.started hph
      · exact cflag j ph hj'
    · intro j r hj
      rcases set_cases hph hj with ⟨rfl, hv⟩ | ⟨hne, hj'⟩
      · simp at hv
      · exact cw j r hj'
    · intro j k r r' hj hk
      rcases set_cases hph hj with ⟨rfl, hv⟩ | ⟨hnej, hj'⟩
      · simp at hv
      · rcases set_cases hph hk with ⟨rfl, hv⟩ | ⟨hnek, hk'⟩
        · simp at hv
        · exact cu j k r r' hj' hk'
    · intro j r hj
      rcases set_cases hph hj with ⟨rfl, hv⟩ | ⟨hne, hj'⟩
      · simp only [Phase.done.injEq] at hv
        exact ⟨hv.1, hf⟩
      · exact ef j r hj'
    · intro j q hj h1 h2
      rcases set_cases hph hj with ⟨rfl, hv⟩ | ⟨hne, hj'⟩
      · simp at hv
      · exact lf j q hj' h1 h2
    · intro j hj
      rcases set_cases hph hj with ⟨rfl, hv⟩ | ⟨hne, hj'⟩
      · exact Phase.noConfusion hv
      · exact cf j hj'
  | beginOracle i hph hf heq =>
    subst heq
    refine ⟨?_, ?_, subl, ?_, ?_, ?_, fw, wok, ?_, ?_, ?_, ?_, ?_, wo⟩
    · show (s.phases.set i Phase.inOracle).length = cands.length
      rw [List.length_set]; exact len_p
    · show (s.counts.set i (s.counts.getD i 0 + 1)).length = cands.length
      rw [List.length_set]; exact len_c
    · show activeCount (s.phases.set i Phase.inOracle) ≤ maxW
      have hb := countP_set_balance Phase.isActive s.phases i Phase.inOracle
        Phase.started hph
      simp [Phase.isActive] at hb
      simp only [activeCount] at actl ⊢
      omega
    · intro j o hj
      rcases set_cases hph hj with ⟨rfl, hv⟩ | ⟨hne, hj'⟩
      · exact Phase.noConfusion hv
      · exact osrc j o hj'
    · intro j ph hj
      rcases set_cases hph hj with ⟨rfl, rfl⟩ | ⟨hne, hj'⟩
      · have h0 : s.counts[j]? = some 0 := by
          simpa [Phase.invoked] using cflag _ Phase.started hph
        have hD : s.counts.getD j 0 = 0 := getD_of_getElem? _ _ _ _ h0
        show (s.counts.set j (s.counts.getD j 0 + 1))[j]? = _
        rw [get_set_self s.counts j _ 0 h0, hD]
        simp [Phase.invoked]
      · show (s.counts.set i (s.counts.getD i 0 + 1))[j]? = _
        rw [get_set_other s.counts i j _ (fun he => hne he.symm)]
        exact cflag j ph hj'
    · intro j r hj
      rcases set_cases hph hj with ⟨rfl, hv⟩ | ⟨hne, hj'⟩
      · exact Phase.noConfusion hv
      · exact cw j r hj'
    · intro j k r r' hj hk
      rcases set_cases hph hj with ⟨rfl, hv⟩ | ⟨hnej, hj'⟩
      · exact Phase.noConfusion hv
      · rcases set_cases hph hk with ⟨rfl, hv⟩ | ⟨hnek, hk'⟩
        · exact Phase.noConfusion hv
        · exact cu j k r r' hj' hk'
    · intro j r hj
      rcases set_cases hph hj with ⟨rfl, hv⟩ | ⟨hne, hj'⟩
      · exact Phase.noConfusion hv
      · exact ef j r hj'
    · intro j q hj h1 h2
      rcases set_cases hph hj with ⟨rfl, hv⟩ | ⟨hne, hj'⟩
      · exact Phase.noConfusion hv
      · exact lf j q hj' h1 h2
    · intro j hj
      rcases set_cases hph hj with ⟨rfl, hv⟩ | ⟨hne, hj'⟩
      · exact Phase.noConfusion hv
      · exact cf j hj'
  | endOracle i p hph hpc heq =>
    subst heq
    refine ⟨?_, len_c, subl, ?_, ?_, ?_, fw, wok, ?_, ?_, ?_, ?_, ?_, wo⟩
    · show (s.phases.set i (Phase.gotOutcome (oracle p))).length = cands.length
      rw [List.length_set]; exact len_p
    · show activeCount (s.phases.set i (Phase.gotOutcome (oracle p))) ≤ maxW
      have hb := countP_set_balance Phase.isActive s.phases i
        (Phase.gotOutcome (oracle p)) Phase.inOracle hph
      simp [Phase.isActive] at hb
      simp only [activeCount] at actl ⊢
      omega
    · intro j o hj
      rcases set_cases hph hj with ⟨rfl, hv⟩ | ⟨hne, hj'⟩
      · simp only [Phase.gotOutcome.injEq] at hv
        exact ⟨p, hpc, hv⟩
      · exact osrc j o hj'
    · intro j ph hj
      rcases set_cases hph hj with ⟨rfl, rfl⟩ | ⟨hne, hj'⟩
      · simpa [Phase.invoked] using cflag _ Phase.inOracle hph
      · exact cflag j ph hj'
    · intro j r hj
      rcases set_cases hph hj with ⟨rfl, hv⟩ | ⟨hne, hj'⟩
      · exact Phase.noConfusion hv
      · exact cw j r hj'
    · intro j k r r' hj hk
      rcases set_cases hph hj with ⟨rfl, hv⟩ | ⟨hnej, hj'⟩
      · exact Phase.noConfusion hv
      · rcases set_cases hph hk with ⟨rfl, hv⟩ | ⟨hnek, hk'⟩
        · exact Phase.noConfusion hv
        · exact cu j k r r' hj' hk'
    · intro j r hj
      rcases set_cases hph hj with ⟨rfl, hv⟩ | ⟨hne, hj'⟩
      · exact Phase.noConfusion hv
      · exact ef j r hj'
    · intro j q hj h1 h2
      rcases set_cases hph hj with ⟨rfl, hv⟩ | ⟨hne, hj'⟩
      · exact Phase.noConfusion hv
      · exact lf j q hj' h1 h2
    · intro j hj
      rcases set_cases hph hj with ⟨rfl, hv⟩ | ⟨hne, hj'⟩
      · exact Phase.noConfusion hv
      · exact cf j hj'
  | claimWin i p hph hpc hf heq =>
    subst heq
    refine ⟨?_, len_c, subl, ?_, ?_, ?_, ?_, ?_, ?_, ?_, ?_, ?_, ?_, ?_⟩
    · show (s.phases.set i (Phase.done true true)).length = cands.length
      rw [List.length_set]; exact len_p
    · show activeCount (s.phases.set i (Phase.done true true)) ≤ maxW
      have hb := countP_set_balance Phase.isActive s.phases i (Phase.done true true)
        (Phase.gotOutcome Outcome.success) hph
      simp [Phase.isActive] at hb
      simp only [activeCount] at actl ⊢
      omega
    · intro j o hj
      rcases set_cases hph hj with ⟨rfl, hv⟩ | ⟨hne, hj'⟩
      · exact Phase.noConfusion hv
      · exact osrc j o hj'
    · intro j ph hj
      rcases set_cases hph hj with ⟨rfl, rfl⟩ | ⟨hne, hj'⟩
      · simpa [Phase.invoked] using cflag _ (Phase.gotOutcome Outcome.success) hph
      · exact cflag j ph hj'
    · rfl
    · intro q hq
      rcases Option.some.inj hq with rfl
      rcases osrc i Outcome.success hph with ⟨p', hp', hsucc⟩
      rcases Option.some.inj (hp'.symm.trans hpc) with rfl
      exact ⟨hsucc.symm, List.getElem?_mem hpc⟩
    · intro j r hj
      rcases set_cases hph hj with ⟨rfl, hv⟩ | ⟨hne, hj'⟩
      · simp only [Phase.done.injEq] at hv
        exact ⟨hv.2, rfl, hpc.symm⟩
      · exact absurd (cw j r hj').2.1 (by simp [hf])
    · intro j k r r' hj hk
      rcases set_cases hph hj with ⟨rfl, hv⟩ | ⟨hnej, hj'⟩
      · rcases set_cases hph hk with ⟨rfl, hv'⟩ | ⟨hnek, hk'⟩
        · rfl
        · exact absurd (cw k r' hk').2.1 (by simp [hf])
      · exact absurd (cw j r hj').2.1 (by simp [hf])
    · intro j r hj
      rcases set_cases hph hj with ⟨rfl, hv⟩ | ⟨hne, hj'⟩
      · simp at hv
      · exact ⟨(ef j r hj').1, rfl⟩
    · intro j q hj h1 h2
      rfl
    · intro j hj
      rfl
    · show (s.output ++ [LogLine.win username p]).filter LogLine.isWin
        = [LogLine.win username p]
      have hc : s.correct_password = none := by
        cases hco : s.correct_password with
        | none => rfl
        | some q => rw [hco, hf] at fw; simp at fw
      have wo' : s.output.filter LogLine.isWin = [] := by
        rw [hc] at wo; exact wo
      rw [List.filter_append, wo']
      simp [LogLine.isWin]
  | claimLost i hph hf heq =>
    subst heq
    refine ⟨?_, len_c, subl, ?_, ?_, ?_, fw, wok, ?_, ?_, ?_, ?_, ?_, wo⟩
    · show (s.phases.set i (Phase.done false true)).length = cands.length
      rw [List.length_set]; exact len_p
    · show activeCount (s.phases.set i (Phase.done false true)) ≤ maxW
      have hb := countP_set_balance Phase.isActive s.phases i (Phase.done false true)
        (Phase.gotOutcome Outcome.success) hph
      simp [Phase.isActive] at hb
      simp only [activeCount] at actl ⊢
      omega
    · intro j o hj
      rcases set_cases hph hj with ⟨rfl, hv⟩ | ⟨hne, hj'⟩
      · exact Phase.noConfusion hv
      · exact osrc j o hj'
    · intro j ph hj
      rcases set_cases hph hj with ⟨rfl, rfl⟩ | ⟨hne, hj'⟩
      · simpa [Phase.invoked] using cflag _ (Phase.gotOutcome Outcome.success) hph
      · exact cflag j ph hj'
    · intro j r hj
      rcases set_cases hph hj with ⟨rfl, hv⟩ | ⟨hne, hj'⟩
      · simp at hv
      · exact cw j r hj'
    · intro j k r r' hj hk
      rcases set_cases hph hj with ⟨rfl, hv⟩ | ⟨hnej, hj'⟩
      · simp at hv
      · rcases set_cases hph hk with ⟨rfl, hv⟩ | ⟨hnek, hk'⟩
        · simp at hv
        · exact cu j k r r' hj' hk'
    · intro j r hj
      rcases set_cases hph hj with ⟨rfl, hv⟩ | ⟨hne, hj'⟩
      · simp at hv
      · exact ef j r hj'
    · intro j q hj h1 h2
      rcases set_cases hph hj with ⟨rfl, hv⟩ | ⟨hne, hj'⟩
      · exact hf
      · exact lf j q hj' h1 h2
    · intro j hj
      rcases set_cases hph hj with ⟨rfl, hv⟩ | ⟨hne, hj'⟩
      · exact Phase.noConfusion hv
      · exact cf j hj'
  | logAttempt i p hph hpc heq =>
    subst heq
    refine ⟨?_, len_c, subl, ?_, ?_, ?_, fw, wok, ?_, ?_, ?_, ?_, ?_, ?_⟩
    · show (s.phases.set i (Phase.done false true)).length = cands.length
      rw [List.length_set]; exact len_p
    · show activeCount (s.phases.set i (Phase.done false true)) ≤ maxW
      have hb := countP_set_balance Phase.isActive s.phases i (Phase.done false true)
        (Phase.gotOutcome Outcome.rejected) hph
      simp [Phase.isActive] at hb
      simp only [activeCount] at actl ⊢
      omega
    · intro j o hj
      rcases set_cases hph hj with ⟨rfl, hv⟩ | ⟨hne, hj'⟩
      · exact Phase.noConfusion hv
      · exact osrc j o hj'
    · intro j ph hj
      rcases set_cases hph hj with ⟨rfl, rfl⟩ | ⟨hne, hj'⟩
      · simpa [Phase.invoked] using cflag _ (Phase.gotOutcome Outcome.rejected) hph
      · exact cflag j ph hj'
    · intro j r hj
      rcases set_cases hph hj with ⟨rfl, hv⟩ | ⟨hne, hj'⟩
      · simp at hv
      · exact cw j r hj'
    · intro j k r r' hj hk
      rcases set_cases hph hj with ⟨rfl, hv⟩ | ⟨hnej, hj'⟩
      · simp at hv
      · rcases set_cases hph hk with ⟨rfl, hv⟩ | ⟨hnek, hk'⟩
        · simp at hv
        · exact cu j k r r' hj' hk'
    · intro j r hj
      rcases set_cases hph hj with ⟨rfl, hv⟩ | ⟨hne, hj'⟩
      · simp at hv
      · exact ef j r hj'
    · intro j q hj h1 h2
      rcases set_cases hph hj with ⟨rfl, hv⟩ | ⟨hne, hj'⟩
      · rcases osrc _ Outcome.rejected hph with ⟨p', hp', hrej⟩
        rcases Option.some.inj (hp'.symm.trans h1) with rfl
        exact Outcome.noConfusion (hrej.trans h2)
      · exact lf j q hj' h1 h2
    · intro j hj
      rcases set_cases hph hj with ⟨rfl, hv⟩ | ⟨hne, hj'⟩
      · exact Phase.noConfusion hv
      · exact cf j hj'
    · show (s.output ++ (if s.found_password then [] else [LogLine.attempt p])).filter
        LogLine.isWin = _
      have hz : (if s.found_password then ([] : List LogLine)
          else [LogLine.attempt p]).filter LogLine.isWin = [] := by
        cases s.found_password <;> simp [LogLine.isWin]
      rw [List.filter_append, hz, List.append_nil]
      exact wo
  | logError i p e hph hpc heq =>
    subst heq
    refine ⟨?_, len_c, subl, ?_, ?_, ?_, fw, wok, ?_, ?_, ?_, ?_, ?_, ?_⟩
    · show (s.phases.set i (Phase.done false true)).length = cands.length
      rw [List.length_set]; exact len_p
    · show activeCount (s.phases.set i (Phase.done false true)) ≤ maxW
      have hb := countP_set_balance Phase.isActive s.phases i (Phase.done false true)
        (Phase.gotOutcome (Outcome.error e)) hph
      simp [Phase.isActive] at hb
      simp only [activeCount] at actl ⊢
      omega
    · intro j o hj
      rcases set_cases hph hj with ⟨rfl, hv⟩ | ⟨hne, hj'⟩
      · exact Phase.noConfusion hv
      · exact osrc j o hj'
    · intro j ph hj
      rcases set_cases hph hj with ⟨rfl, rfl⟩ | ⟨hne, hj'⟩
      · simpa [Phase.invoked] using cflag _ (Phase.gotOutcome (Outcome.error e)) hph
      · exact cflag j ph hj'
    · intro j r hj
      rcases set_cases hph hj with ⟨rfl, hv⟩ | ⟨hne, hj'⟩
      · simp at hv
      · exact cw j r hj'
    · intro j k r r' hj hk
      rcases set_cases hph hj with ⟨rfl, hv⟩ | ⟨hnej, hj'⟩
      · simp at hv
      · rcases set_cases hph hk with ⟨rfl, hv⟩ | ⟨hnek, hk'⟩
        · simp at hv
        · exact cu j k r r' hj' hk'
    · intro j r hj
      rcases set_cases hph hj with ⟨rfl, hv⟩ | ⟨hne, hj'⟩
      · simp at hv
      · exact ef j r hj'
    · intro j q hj h1 h2
      rcases set_cases hph hj with ⟨rfl, hv⟩ | ⟨hne, hj'⟩
      · rcases osrc _ (Outcome.error e) hph with ⟨p', hp', herr⟩
        rcases Option.some.inj (hp'.symm.trans h1) with rfl
        exact Outcome.noConfusion (herr.trans h2)
      · exact lf j q hj' h1 h2
    · intro j hj
      rcases set_cases hph hj with ⟨rfl, hv⟩ | ⟨hne, hj'⟩
      · exact Phase.noConfusion hv
      · exact cf j hj'
    · show (s.output ++ (if s.found_password then [] else [LogLine.errorWith p e])).filter
        LogLine.isWin = _
      have hz : (if s.found_password then ([] : List LogLine)
          else [LogLine.errorWith p e]).filter LogLine.isWin = [] := by
        cases s.found_password <;> simp [LogLine.isWin]
      rw [List.filter_append, hz, List.append_nil]
      exact wo
  | cancel i hsub hf hph heq =>
    subst heq
    refine ⟨?_, len_c, subl, ?_, ?_, ?_, fw, wok, ?_, ?_, ?_, ?_, ?_, wo⟩
    · show (s.phases.set i Phase.cancelled).length = cands.length
      rw [List.length_set]; exact len_p
    · show activeCount (s.phases.set i Phase.cancelled) ≤ maxW
      have hb := countP_set_balance Phase.isActive s.phases i Phase.cancelled
        Phase.notStarted hph
      simp [Phase.isActive] at hb
      simp only [activeCount] at actl ⊢
      omega
    · intro j o hj
      rcases set_cases hph hj with ⟨rfl, hv⟩ | ⟨hne, hj'⟩
      · exact Phase.noConfusion hv
      · exact osrc j o hj'
    · intro j ph hj
      rcases set_cases hph hj with ⟨rfl, rfl⟩ | ⟨hne, hj'⟩
      · simpa [Phase.invoked] using cflag _ Phase.notStarted hph
      · exact cflag j ph hj'
    · intro j r hj
      rcases set_cases hph hj with ⟨rfl, hv⟩ | ⟨hne, hj'⟩
      · exact Phase.noConfusion hv
      · exact cw j r hj'
    · intro j k r r' hj hk
      rcases set_cases hph hj with ⟨rfl, hv⟩ | ⟨hnej, hj'⟩
      · exact Phase.noConfusion hv
      · rcases set_cases hph hk with ⟨rfl, hv⟩ | ⟨hnek, hk'⟩
        · exact Phase.noConfusion hv
        · exact cu j k r r' hj' hk'
    · intro j r hj
      rcases set_cases hph hj with ⟨rfl, hv⟩ | ⟨hne, hj'⟩
      · exact Phase.noConfusion hv
      · exact ef j r hj'
    · intro j q hj h1 h2
      rcases set_cases hph hj with ⟨rfl, hv⟩ | ⟨hne, hj'⟩
      · exact Phase.noConfusion hv
      · exact lf j q hj' h1 h2
    · intro j hj
      exact hf

theorem reachable_inv {oracle : String → Outcome} {maxW : Nat} {cands : List String}
    {s : RunState} (h : Reachable oracle maxW cands s) : Inv oracle maxW cands s := by
  unfold Reachable Steps at h
  induction h with
  | refl => exact inv_init oracle maxW cands
  | tail hab hbc ih => exact inv_step ih hbc

theorem reachable_steps {oracle : String → Outcome} {maxW : Nat} {cands : List String}
    {s t : RunState} (h1 : Reachable oracle maxW cands s)
    (h2 : Steps oracle maxW cands s t) : Reachable oracle maxW cands t :=
  Relation.ReflTransGen.trans h1 h2

theorem found_mono_step {oracle : String → Outcome} {maxW : Nat} {cands : List String}
    {s t : RunState} (h : Step oracle maxW cands s t)
    (hf : s.found_password = true) : t.found_password = true := by
  cases h with
  | submit h1 heq => subst heq; exact hf
  | start i h1 h2 h3 heq => subst heq; exact hf
  | earlyReturn i h1 h2 heq => subst heq; exact hf
  | beginOracle i h1 h2 heq => subst heq; exact hf
  | endOracle i p h1 h2 heq => subst heq; exact hf
  | claimWin i p h1 h2 h3 heq => subst heq; rfl
  | claimLost i h1 h2 heq => subst heq; exact hf
  | logAttempt i p h1 h2 heq => subst heq; exact hf
  | logError i p e h1 h2 heq => subst heq; exact hf
  | cancel i h1 h2 h3 heq => subst heq; exact hf

theorem found_mono {oracle : String → Outcome} {maxW : Nat} {cands : List String}
    {s t : RunState} (h : Steps oracle maxW cands s t)
    (hf : s.found_password = true) : t.found_password = true := by
  unfold Steps at h
  induction h with
  | refl => exact hf
  | tail hab hbc ih => exact found_mono_step hbc ih

theorem output_frozen_step {oracle : String → Outcome} {maxW : Nat} {cands : List String}
    {s t : RunState} (h : Step oracle maxW cands s t)
    (hf : s.found_password = true) : t.output = s.output := by
  cases h with
  | submit h1 heq => subst heq; rfl
  | start i h1 h2 h3 heq => subst heq; rfl
  | earlyReturn i h1 h2 heq => subst heq; rfl
  | beginOracle i h1 h2 heq => subst heq; rfl
  | endOracle i p h1 h2 heq => subst heq; rfl
  | claimWin i p h1 h2 h3 heq => rw [h3] at hf; exact Bool.noConfusion hf
  | claimLost i h1 h2 heq => subst heq; rfl
  | logAttempt i p h1 h2 heq => subst heq; show s.output ++ _ = s.output; rw [hf]; simp
  | logError i p e h1 h2 heq => subst heq; show s.output ++ _ = s.output; rw [hf]; simp
  | cancel i h1 h2 h3 heq => subst heq; rfl

theorem output_frozen {oracle : String → Outcome} {maxW : Nat} {cands : List String}
    {s t : RunState} (h : Steps oracle maxW cands s t)
    (hf : s.found_password = true) : t.output = s.output := by
  unfold Steps at h
  induction h with
  | refl => rfl
  | tail hab hbc ih =>
    have hbf : _ = true := found_mono hab hf
    rw [output_frozen_step hbc hbf, ih]

theorem set_preserve_at {α : Type} {l : List α} {i j : Nat} {v b w : α}
    (hj : l[j]? = some b) (hi : l[i]? = some w) (hne : b ≠ w) :
    (l.set j v)[i]? = some w := by
  have hji : j ≠ i := by
    intro he; subst he; rw [hj] at hi; exact hne (Option.some.inj hi)
  rw [get_set_other l j i v hji]; exact hi

theorem done_stable_step {oracle : String → Outcome} {maxW : Nat} {cands : List String}
    {s t : RunState} (h : Step oracle maxW cands s t) (i : Nat) (r v : Bool)
    (hd : s.phases[i]? = some (Phase.done r v)) :
    t.phases[i]? = some (Phase.done r v) := by
  cases h with
  | submit h1 heq => subst heq; exact hd
  | start j h1 h2 h3 heq => subst heq; exact set_preserve_at h2 hd (by simp)
  | earlyReturn j h1 h2 heq => subst heq; exact set_preserve_at h1 hd (by simp)
  | beginOracle j h1 h2 heq => subst heq; exact set_preserve_at h1 hd (by simp)
  | endOracle j p h1 h2 heq => subst heq; exact set_preserve_at h1 hd (by simp)
  | claimWin j p h1 h2 h3 heq => subst heq; exact set_preserve_at h1 hd (by simp)
  | claimLost j h1 h2 heq => subst heq; exact set_preserve_at h1 hd (by simp)
  | logAttempt j p h1 h2 heq => subst heq; exact set_preserve_at h1 hd (by simp)
  | logError j p e h1 h2 heq => subst heq; exact set_preserve_at h1 hd (by simp)
  | cancel j h1 h2 h3 heq => subst heq; exact set_preserve_at h3 hd (by simp)

theorem done_stable {oracle : String → Outcome} {maxW : Nat} {cands : List String}
    {s t : RunState} (h : Steps oracle maxW cands s t) (i : Nat) (r v : Bool)
    (hd : s.phases[i]? = some (Phase.done r v)) :
    t.phases[i]? = some (Phase.done r v) := by
  unfold Steps at h
  induction h with
  | refl => exact hd
  | tail hab hbc ih => exact done_stable_step hbc i r v ih

theorem invoked_mono_step {oracle : String → Outcome} {maxW : Nat} {cands : List String}
    {s t : RunState} (h : Step oracle maxW cands s t) (i : Nat)
    (hp : ∃ ph, s.phases[i]? = some ph ∧ ph.invoked = true) :
    ∃ ph, t.phases[i]? = some ph ∧ ph.invoked = true := by
  obtain ⟨ph, hpi, hinv⟩ := hp
  have hnsNe : Phase.notStarted ≠ ph := by
    intro he; rw [← he] at hinv; simp [Phase.invoked] at hinv
  have hstNe : Phase.started ≠ ph := by
    intro he; rw [← he] at hinv; simp [Phase.invoked] at hinv
  cases h with
  | submit h1 heq => subst heq; exact ⟨ph, hpi, hinv⟩
  | start j h1 h2 h3 heq => subst heq; exact ⟨ph, set_preserve_at h2 hpi hnsNe, hinv⟩
  | earlyReturn j h1 h2 heq => subst heq; exact ⟨ph, set_preserve_at h1 hpi hstNe, hinv⟩
  | beginOracle j h1 h2 heq => subst heq; exact ⟨ph, set_preserve_at h1 hpi hstNe, hinv⟩
  | endOracle j p h1 h2 heq =>
    subst heq
    by_cases hji : j = i
    · subst hji
      exact ⟨Phase.gotOutcome (oracle p), get_set_self _ _ _ _ h1, rfl⟩
    · exact ⟨ph, by rw [get_set_other _ _ _ _ hji]; exact hpi, hinv⟩
  | claimWin j p h1 h2 h3 heq =>
    subst heq
    by_cases hji : j = i
    · subst hji
      exact ⟨Phase.done true true, get_set_self _ _ _ _ h1, rfl⟩
    · exact ⟨ph, by rw [get_set_other _ _ _ _ hji]; exact hpi, hinv⟩
  | claimLost j h1 h2 heq =>
    subst heq
    by_cases hji : j = i
    · subst hji
      exact ⟨Phase.done false true, get_set_self _ _ _ _ h1, rfl⟩
    · exact ⟨ph, by rw [get_set_other _ _ _ _ hji]; exact hpi, hinv⟩
  | logAttempt j p h1 h2 heq =>
    subst heq
    by_cases hji : j = i
    · subst hji
      exact ⟨Phase.done false true, get_set_self _ _ _ _ h1, rfl⟩
    · exact ⟨ph, by rw [get_set_other _ _ _ _ hji]; exact hpi, hinv⟩
  | logError j p e h1 h2 heq =>
    subst heq
    by_cases hji : j = i
    · subst hji
      exact ⟨Phase.done false true, get_set_self _ _ _ _ h1, rfl⟩
    · exact ⟨ph, by rw [get_set_other _ _ _ _ hji]; exact hpi, hinv⟩
  | cancel j h1 h2 h3 heq => subst heq; exact ⟨ph, set_preserve_at h3 hpi hnsNe, hinv⟩

theorem invoked_mono {oracle : String → Outcome} {maxW : Nat} {cands : List String}
    {s t : RunState} (h : Steps oracle maxW cands s t) (i : Nat)
    (hp : ∃ ph, s.phases[i]? = some ph ∧ ph.invoked = true) :
    ∃ ph, t.phases[i]? = some ph ∧ ph.invoked = true := by
  unfold Steps at h
  induction h with
  | refl => exact hp
  | tail hab hbc ih => exact invoked_mono_step hbc i ih

theorem msr_step_lt {oracle : String → Outcome} {maxW : Nat} {cands : List String}
    {s t : RunState} (h : Step oracle maxW cands s t) : msr cands t < msr cands s := by
  cases h with
  | submit h1 heq =>
    subst heq; simp only [msr]; omega
  | start i h1 h2 h3 heq =>
    subst heq; simp only [msr]
    have hb := summap_set_balance Phase.weight s.phases i Phase.started
      Phase.notStarted h2
    simp only [Phase.weight] at hb
    omega
  | earlyReturn i h1 h2 heq =>
    subst heq; simp only [msr]
    have hb := summap_set_balance Phase.weight s.phases i (Phase.done false false)
      Phase.started h1
    simp only [Phase.weight] at hb
    omega
  | beginOracle i h1 h2 heq =>
    subst heq; simp only [msr]
    have hb := summap_set_balance Phase.weight s.phases i Phase.inOracle
      Phase.started h1
    simp only [Phase.weight] at hb
    omega
  | endOracle i p h1 h2 heq =>
    subst heq; simp only [msr]
    have hb := summap_set_balance Phase.weight s.phases i
      (Phase.gotOutcome (oracle p)) Phase.inOracle h1
    simp only [Phase.weight] at hb
    omega
  | claimWin i p h1 h2 h3 heq =>
    subst heq; simp only [msr]
    have hb := summap_set_balance Phase.weight s.phases i (Phase.done true true)
      (Phase.gotOutcome Outcome.success) h1
    simp only [Phase.weight] at hb
    omega
  | claimLost i h1 h2 heq =>
    subst heq; simp only [msr]
    have hb := summap_set_balance Phase.weight s.phases i (Phase.done false true)
      (Phase.gotOutcome Outcome.success) h1
    simp only [Phase.weight] at hb
    omega
  | logAttempt i p h1 h2 heq =>
    subst heq; simp only [msr]
    have hb := summap_set_balance Phase.weight s.phases i (Phase.done false true)
      (Phase.gotOutcome Outcome.rejected) h1
    simp only [Phase.weight] at hb
    omega
  | logError i p e h1 h2 heq =>
    subst heq; simp only [msr]
    have hb := summap_set_balance Phase.weight s.phases i (Phase.done false true)
      (Phase.gotOutcome (Outcome.error e)) h1
    simp only [Phase.weight] at hb
    omega
  | cancel i h1 h2 h3 heq =>
    subst heq; simp only [msr]
    have hb := summap_set_balance Phase.weight s.phases i Phase.cancelled
      Phase.notStarted h3
    simp only [Phase.weight] at hb
    omega

theorem run_terminates (oracle : String → Outcome) (maxW : Nat) (cands : List String) :
    ¬ ∃ f : Nat → RunState, f 0 = initState cands ∧
      ∀ n, Step oracle maxW cands (f n) (f (n + 1)) := by
  rintro ⟨f, -, hstep⟩
  have hlt : ∀ n, msr cands (f (n + 1)) < msr cands (f n) :=
    fun n => msr_step_lt (hstep n)
  have hub : ∀ n, msr cands (f n) + n ≤ msr cands (f 0) := by
    intro n
    induction n with
    | zero => omega
    | succ k ih => have := hlt k; omega
  have := hub (msr cands (f 0) + 1)
  omega

theorem progress {oracle : String → Outcome} {maxW : Nat} {cands : List String}
    {s : RunState} (hW : 1 ≤ maxW) (hs : Reachable oracle maxW cands s)
    (hnf : ¬ Finished s) : ∃ t, Step oracle maxW cands s t := by
  have H := reachable_inv hs
  have stepOfActive : ∀ (j : Nat) (q : Phase), s.phases[j]? = some q →
      q.isActive = true → ∃ t, Step oracle maxW cands s t := by
    intro j q hq hact
    have hj_lt : j < cands.length := by
      have := lt_of_getElem?_some _ _ _ hq
      rw [H.phases_len] at this
      exact this
    obtain ⟨p, hp⟩ : ∃ p, cands[j]? = some p := ⟨_, List.getElem?_eq_getElem hj_lt⟩
    cases q with
    | started =>
      cases hfp : s.found_password with
      | true => exact ⟨_, Step.earlyReturn s _ j hq hfp rfl⟩
      | false => exact ⟨_, Step.beginOracle s _ j hq hfp rfl⟩
    | inOracle => exact ⟨_, Step.endOracle s _ j p hq hp rfl⟩
    | gotOutcome o =>
      cases o with
      | success =>
        cases hfp : s.found_password with
        | true => exact ⟨_, Step.claimLost s _ j hq hfp rfl⟩
        | false => exact ⟨_, Step.claimWin s _ j p hq hp hfp rfl⟩
      | rejected => exact ⟨_, Step.logAttempt s _ j p hq hp rfl⟩
      | error e => exact ⟨_, Step.logError s _ j p e hq hp rfl⟩
    | notStarted => simp [Phase.isActive] at hact
    | done r v => simp [Phase.isActive] at hact
    | cancelled => simp [Phase.isActive] at hact
  have hexu : ∃ ph ∈ s.phases, ¬ (Phase.isFinished ph = true) := by
    by_contra hc
    push_neg at hc
    exact hnf (List.all_eq_true.mpr fun a ha => hc a ha)
  obtain ⟨ph, hmem, hunf⟩ := hexu
  obtain ⟨i, hi⟩ := index_of_mem s.phases ph hmem
  cases ph with
  | started => exact stepOfActive i Phase.started hi rfl
  | inOracle => exact stepOfActive i Phase.inOracle hi rfl
  | gotOutcome o => exact stepOfActive i (Phase.gotOutcome o) hi rfl
  | done r v => exact absurd rfl hunf
  | cancelled => exact absurd rfl hunf
  | notStarted =>
    cases Nat.lt_or_ge s.submitted cands.length with
    | inl hlt => exact ⟨_, Step.submit s _ hlt rfl⟩
    | inr hge =>
      have hsub_eq : s.submitted = cands.length := Nat.le_antisymm H.sub_le hge
      have hi_lt : i < s.submitted := by
        rw [hsub_eq]
        have := lt_of_getElem?_some _ _ _ hi
        rw [H.phases_len] at this
        exact this
      cases Nat.lt_or_ge (activeCount s.phases) maxW with
      | inl hact => exact ⟨_, Step.start s _ i hi_lt hi hact rfl⟩
      | inr hge2 =>
        have hA := H.active_le
        have hpos : 0 < activeCount s.phases := by omega
        obtain ⟨q, hqmem, hq⟩ :=
          List.countP_pos_iff.mp (by simpa [activeCount] using hpos)
        obtain ⟨j, hj⟩ := index_of_mem _ q hqmem
        exact stepOfActive j q hj hq

/-! Concrete executions of the model, used as witnesses below. -/

theorem exStep_claim : Step exOracle 2 exCands exMid exClaimed :=
  Step.claimWin exMid exClaimed 1 "000B" (by decide) (by decide) (by decide) (by decide)

theorem exReach_mid : Reachable exOracle 2 exCands exMid := by
  unfold Reachable Steps
  refine Relation.ReflTransGen.head (Step.submit _ _ (by decide) rfl) ?_
  refine Relation.ReflTransGen.head (Step.submit _ _ (by decide) rfl) ?_
  refine Relation.ReflTransGen.head (Step.start _ _ 0 (by decide) (by decide) (by decide) rfl) ?_
  refine Relation.ReflTransGen.head (Step.start _ _ 1 (by decide) (by decide) (by decide) rfl) ?_
  refine Relation.ReflTransGen.head
    (Step.beginOracle _ _ 0 (by decide) (by decide) rfl) ?_
  refine Relation.ReflTransGen.head
    (Step.beginOracle _ _ 1 (by decide) (by decide) rfl) ?_
  exact Relation.ReflTransGen.single
    (Step.endOracle _ _ 1 "000B" (by decide) (by decide) (by decide))

theorem exReach_claimed : Reachable exOracle 2 exCands exClaimed :=
  reachable_steps exReach_mid (Relation.ReflTransGen.single exStep_claim)

theorem exSteps_claimed_final : Steps exOracle 2 exCands exClaimed exFinal := by
  unfold Steps
  refine Relation.ReflTransGen.head
    (Step.endOracle _ _ 0 "000A" (by decide) (by decide) rfl) ?_
  exact Relation.ReflTransGen.single
    (Step.logAttempt _ _ 0 "000A" (by decide) (by decide) (by decide))

theorem exReach_final : Reachable exOracle 2 exCands exFinal :=
  reachable_steps exReach_claimed exSteps_claimed_final

theorem exFinished_final : Finished exFinal := by unfold Finished; decide

theorem exReach_late : Reachable exOracle 2 exCands exLate := by
  unfold Reachable Steps
  refine Relation.ReflTransGen.head (Step.submit _ _ (by decide) rfl) ?_
  refine Relation.ReflTransGen.head (Step.submit _ _ (by decide) rfl) ?_
  refine Relation.ReflTransGen.head (Step.start _ _ 1 (by decide) (by decide) (by decide) rfl) ?_
  refine Relation.ReflTransGen.head
    (Step.beginOracle _ _ 1 (by decide) (by decide) rfl) ?_
  refine Relation.ReflTransGen.head
    (Step.endOracle _ _ 1 "000B" (by decide) (by decide) rfl) ?_
  refine Relation.ReflTransGen.head
    (Step.claimWin _ _ 1 "000B" (by decide) (by decide) (by decide) rfl) ?_
  exact Relation.ReflTransGen.single
    (Step.start _ _ 0 (by decide) (by decide) (by decide) (by decide))

theorem bReach_final : Reachable bOracle 2 bCands bFinal := by
  unfold Reachable Steps
  refine Relation.ReflTransGen.head (Step.submit _ _ (by decide) rfl) ?_
  refine Relation.ReflTransGen.head (Step.submit _ _ (by decide) rfl) ?_
  refine Relation.ReflTransGen.head (Step.start _ _ 0 (by decide) (by decide) (by decide) rfl) ?_
  refine Relation.ReflTransGen.head
    (Step.beginOracle _ _ 0 (by decide) (by decide) rfl) ?_
  refine Relation.ReflTransGen.head
    (Step.endOracle _ _ 0 "AAA" (by decide) (by decide) rfl) ?_
  refine Relation.ReflTransGen.head
    (Step.logAttempt _ _ 0 "AAA" (by decide) (by decide) rfl) ?_
  refine Relation.ReflTransGen.head (Step.start _ _ 1 (by decide) (by decide) (by decide) rfl) ?_
  refine Relation.ReflTransGen.head
    (Step.beginOracle _ _ 1 (by decide) (by decide) rfl) ?_
  refine Relation.ReflTransGen.head
    (Step.endOracle _ _ 1 "AAB" (by decide) (by decide) rfl) ?_
  exact Relation.ReflTransGen.single
    (Step.logAttempt _ _ 1 "AAB" (by decide) (by decide) (by decide))

theorem bFinished_final : Finished bFinal := by unfold Finished; decide

theorem errReach_mid : Reachable errOracle 1 errCands errMid := by
  unfold Reachable Steps
  refine Relation.ReflTransGen.head (Step.submit _ _ (by decide) rfl) ?_
  refine Relation.ReflTransGen.head (Step.start _ _ 0 (by decide) (by decide) (by decide) rfl) ?_
  refine Relation.ReflTransGen.head
    (Step.beginOracle _ _ 0 (by decide) (by decide) rfl) ?_
  exact Relation.ReflTransGen.single
    (Step.endOracle _ _ 0 "X" (by decide) (by decide) (by decide))

theorem skip_inv_step {oracle : String → Outcome} {maxW : Nat} {cands : List String}
    {u v : RunState} (h : Step oracle maxW cands u v) (i : Nat)
    (hf : u.found_password = true)
    (hp : u.phases[i]? = some Phase.started ∨ u.phases[i]? = some (Phase.done false false)) :
    v.found_password = true ∧
      (v.phases[i]? = some Phase.started ∨ v.phases[i]? = some (Phase.done false false)) := by
  refine ⟨found_mono_step h hf, ?_⟩
  rcases hp with hp | hp
  · cases h with
    | submit h1 heq => subst heq; exact Or.inl hp
    | start j h1 h2 h3 heq => subst heq; exact Or.inl (set_preserve_at h2 hp (by simp))
    | earlyReturn j h1 h2 heq =>
      subst heq
      by_cases hji : j = i
      · subst hji; exact Or.inr (get_set_self _ _ _ _ h1)
      · exact Or.inl (by rw [get_set_other _ _ _ _ hji]; exact hp)
    | beginOracle j h1 h2 heq => rw [hf] at h2; exact Bool.noConfusion h2
    | endOracle j q h1 h2 heq => subst heq; exact Or.inl (set_preserve_at h1 hp (by simp))
    | claimWin j q h1 h2 h3 heq => rw [hf] at h3; exact Bool.noConfusion h3
    | claimLost j h1 h2 heq => subst heq; exact Or.inl (set_preserve_at h1 hp (by simp))
    | logAttempt j q h1 h2 heq => subst heq; exact Or.inl (set_preserve_at h1 hp (by simp))
    | logError j q e h1 h2 heq => subst heq; exact Or.inl (set_preserve_at h1 hp (by simp))
    | cancel j h1 h2 h3 heq => subst heq; exact Or.inl (set_preserve_at h3 hp (by simp))
  · exact Or.inr (done_stable_step h i false false hp)

theorem skip_inv_steps {oracle : String → Outcome} {maxW : Nat} {cands : List String}
    {u v : RunState} (h : Steps oracle maxW cands u v) (i : Nat)
    (hf : u.found_password = true)
    (hp : u.phases[i]? = some Phase.started ∨ u.phases[i]? = some (Phase.done false false)) :
    v.found_password = true ∧
      (v.phases[i]? = some Phase.started ∨ v.phases[i]? = some (Phase.done false false)) := by
  unfold Steps at h
  induction h with
  | refl => exact ⟨hf, hp⟩
  | tail hab hbc ih => exact skip_inv_step hbc i ih.1 ih.2

/-! The claims. -/

/-- Claim C1: over any run, at most one `try_password` call returns `True`
(the lock-guarded found-check-and-set of lines 34-39 admits at most one
claimant), and `correct_password` is exactly the claimant's candidate. -/
theorem spec_C1 (oracle : String → Outcome) (maxW : Nat) (cands : List String)
    (s : RunState) (hs : Reachable oracle maxW cands s) :
    (∀ (i j : Nat) (r r' : Bool), s.phases[i]? = some (Phase.done true r) →
      s.phases[j]? = some (Phase.done true r') → i = j)
    ∧ (∀ (i : Nat), s.phases[i]? = some (Phase.done true true) →
      s.correct_password = cands[i]?) := by
  have H := reachable_inv hs
  exact ⟨H.claimant_unique, fun i hi => (H.claimant_winner i true hi).2.2⟩

theorem spec_C1_witness :
    exFinal.correct_password = exCands[1]? ∧
      exFinal.phases[1]? = some (Phase.done true true) :=
  ⟨(spec_C1 exOracle 2 exCands exFinal exReach_final).2 1 (by decide), by decide⟩

/-- Claim C2: with at least one worker and exactly one valid candidate in
the space, every run terminates and ends found with that candidate recorded;
in general a finished run is either Found (winner recorded) or Exhausted
(no winner, flag down). -/
theorem spec_C2 :
    (∀ (oracle : String → Outcome) (maxW : Nat) (cands : List String) (c : String)
      (s : RunState), 1 ≤ maxW → c ∈ cands → oracle c = Outcome.success →
      (∀ x ∈ cands, oracle x = Outcome.success → x = c) →
      Reachable oracle maxW cands s → Finished s →
      s.found_password = true ∧ s.correct_password = some c)
    ∧ (∀ (oracle : String → Outcome) (maxW : Nat) (cands : List String),
      ¬ ∃ f : Nat → RunState, f 0 = initState cands ∧
        ∀ n, Step oracle maxW cands (f n) (f (n + 1)))
    ∧ (∀ (oracle : String → Outcome) (maxW : Nat) (cands : List String) (s : RunState),
      1 ≤ maxW → Reachable oracle maxW cands s → ¬ Finished s →
      ∃ t, Step oracle maxW cands s t)
    ∧ (∀ (oracle : String → Outcome) (maxW : Nat) (cands : List String) (s : RunState),
      Reachable oracle maxW cands s → Finished s →
      (∃ p, s.correct_password = some p ∧ s.found_password = true)
      ∨ (s.correct_password = none ∧ s.found_password = false)) := by
  refine ⟨?_, ?_, ?_, ?_⟩
  · intro oracle maxW cands c s hW hc hsucc huniq hs hfin
    have H := reachable_inv hs
    have hfound : s.found_password = true := by
      cases hfp : s.found_password with
      | true => rfl
      | false =>
        exfalso
        obtain ⟨i, hi⟩ := index_of_mem cands c hc
        have hi_lt : i < s.phases.length := by
          rw [H.phases_len]; exact lt_of_getElem?_some _ _ _ hi
        obtain ⟨ph, hph⟩ : ∃ ph, s.phases[i]? = some ph :=
          ⟨_, List.getElem?_eq_getElem hi_lt⟩
        have hfin_ph : ph.isFinished = true :=
          List.all_eq_true.mp hfin ph (List.getElem?_mem hph)
        cases ph with
        | notStarted => simp [Phase.isFinished] at hfin_ph
        | started => simp [Phase.isFinished] at hfin_ph
        | inOracle => simp [Phase.isFinished] at hfin_ph
        | gotOutcome o => simp [Phase.isFinished] at hfin_ph
        | cancelled =>
          have := H.cancel_found i hph
          rw [hfp] at this
          exact Bool.noConfusion this
        | done r v =>
          cases r with
          | true =>
            have := (H.claimant_winner i v hph).2.1
            rw [hfp] at this
            exact Bool.noConfusion this
          | false =>
            cases v with
            | false =>
              have := (H.early_found i false hph).2
              rw [hfp] at this
              exact Bool.noConfusion this
            | true =>
              have := H.lost_found i c hph hi hsucc
              rw [hfp] at this
              exact Bool.noConfusion this
    have hw : s.correct_password.isSome = true := by
      rw [← H.found_winner]; exact hfound
    obtain ⟨p, hp⟩ := Option.isSome_iff_exists.mp hw
    obtain ⟨hps, hpmem⟩ := H.winner_ok p hp
    have hpc : p = c := huniq p hpmem hps
    exact ⟨hfound, by rw [hp, hpc]⟩
  · exact run_terminates
  · intro oracle maxW cands s hW hs hnf
    exact progress hW hs hnf
  · intro oracle maxW cands s hs hfin
    have H := reachable_inv hs
    cases hp : s.correct_password with
    | some p => exact Or.inl ⟨p, rfl, by rw [H.found_winner, hp]; rfl⟩
    | none => exact Or.inr ⟨rfl, by rw [H.found_winner, hp]; rfl⟩

theorem spec_C2_witness :
    exFinal.found_password = true ∧ exFinal.correct_password = some "000B" :=
  spec_C2.1 exOracle 2 exCands "000B" exFinal (by decide) (by decide) (by decide)
    (by decide) exReach_final exFinished_final

/-- Claim C3: when no candidate is valid, every finished run is Exhausted
(flag down, no winner) and every candidate was offered to the oracle
exactly once: each task ended `done false` with its ghost invocation count
equal to 1 (none skipped, none duplicated; cancellation never fires since
the flag never rises). -/
theorem spec_C3 (oracle : String → Outcome) (maxW : Nat) (cands : List String)
    (s : RunState) (hnone : ∀ x ∈ cands, oracle x ≠ Outcome.success)
    (hs : Reachable oracle maxW cands s) (hfin : Finished s) :
    s.found_password = false ∧ s.correct_password = none
    ∧ ∀ i : Nat, i < cands.length →
        s.phases[i]? = some (Phase.done false true) ∧ s.counts[i]? = some 1 := by
  have H := reachable_inv hs
  have hff : s.found_password = false := by
    cases hfp : s.found_password with
    | false => rfl
    | true =>
      have hw : s.correct_password.isSome = true := by
        rw [← H.found_winner]; exact hfp
      obtain ⟨p, hp⟩ := Option.isSome_iff_exists.mp hw
      obtain ⟨hps, hpmem⟩ := H.winner_ok p hp
      exact absurd hps (hnone p hpmem)
  have hcn : s.correct_password = none := by
    cases hp : s.correct_password with
    | none => rfl
    | some p =>
      have := H.found_winner
      rw [hff, hp] at this
      exact Bool.noConfusion this
  refine ⟨hff, hcn, ?_⟩
  intro i hi_lt
  have hi_lt' : i < s.phases.length := by rw [H.phases_len]; exact hi_lt
  obtain ⟨ph, hph⟩ : ∃ ph, s.phases[i]? = some ph :=
    ⟨_, List.getElem?_eq_getElem hi_lt'⟩
  have hfin_ph : ph.isFinished = true :=
    List.all_eq_true.mp hfin ph (List.getElem?_mem hph)
  obtain ⟨p, hp⟩ : ∃ p, cands[i]? = some p := ⟨_, List.getElem?_eq_getElem hi_lt⟩
  cases ph with
  | notStarted => simp [Phase.isFinished] at hfin_ph
  | started => simp [Phase.isFinished] at hfin_ph
  | inOracle => simp [Phase.isFinished] at hfin_ph
  | gotOutcome o => simp [Phase.isFinished] at hfin_ph
  | cancelled =>
    have := H.cancel_found i hph
    rw [hff] at this
    exact Bool.noConfusion this
  | done r v =>
    cases r with
    | true =>
      have := (H.claimant_winner i v hph).2.1
      rw [hff] at this
      exact Bool.noConfusion this
    | false =>
      cases v with
      | false =>
        have := (H.early_found i false hph).2
        rw [hff] at this
        exact Bool.noConfusion this
      | true =>
        exact ⟨hph, by simpa [Phase.invoked] using H.count_flag i (Phase.done false true) hph⟩

theorem spec_C3_witness :
    bFinal.found_password = false ∧ bFinal.correct_password = none
    ∧ bFinal.phases[0]? = some (Phase.done false true) ∧ bFinal.counts[0]? = some 1
    ∧ bFinal.phases[1]? = some (Phase.done false true) ∧ bFinal.counts[1]? = some 1 := by
  obtain ⟨h1, h2, h3⟩ :=
    spec_C3 bOracle 2 bCands bFinal (by decide) bReach_final bFinished_final
  exact ⟨h1, h2, (h3 0 (by decide)).1, (h3 0 (by decide)).2,
    (h3 1 (by decide)).1, (h3 1 (by decide)).2⟩

/-- Claim C4: `found_password` is monotone (never reverts to false),
`correct_password` is written at most once, and any step that changes
either of them is the single atomic claim step: it flips the flag
false-to-true and records the winner together, in one lock-guarded step. -/
theorem spec_C4 (oracle : String → Outcome) (maxW : Nat) (cands : List String)
    (s t : RunState) (hs : Reachable oracle maxW cands s)
    (hstep : Step oracle maxW cands s t) :
    (s.found_password = true → t.found_password = true)
    ∧ (∀ p, s.correct_password = some p → t.correct_password = some p)
    ∧ ((s.found_password ≠ t.found_password ∨ s.correct_password ≠ t.correct_password) →
        s.found_password = false ∧ t.found_password = true ∧ s.correct_password = none
        ∧ ∃ (i : Nat) (p : String),
            s.phases[i]? = some (Phase.gotOutcome Outcome.success)
            ∧ cands[i]? = some p ∧ t.correct_password = some p
            ∧ t.phases[i]? = some (Phase.done true true))
    ∧ (∀ u, Steps oracle maxW cands t u → t.found_password = true →
        u.found_password = true) := by
  have H := reachable_inv hs
  refine ⟨fun hf => found_mono_step hstep hf, ?_, ?_, fun u hu hf => found_mono hu hf⟩
  · cases hstep with
    | submit h1 heq => subst heq; exact fun q hq => hq
    | start i h1 h2 h3 heq => subst heq; exact fun q hq => hq
    | earlyReturn i h1 h2 heq => subst heq; exact fun q hq => hq
    | beginOracle i h1 h2 heq => subst heq; exact fun q hq => hq
    | endOracle i p h1 h2 heq => subst heq; exact fun q hq => hq
    | claimWin i p h1 h2 h3 heq =>
      intro q hq
      have hsome : s.correct_password.isSome = true := by rw [hq]; rfl
      rw [← H.found_winner, h3] at hsome
      exact Bool.noConfusion hsome
    | claimLost i h1 h2 heq => subst heq; exact fun q hq => hq
    | logAttempt i p h1 h2 heq => subst heq; exact fun q hq => hq
    | logError i p e h1 h2 heq => subst heq; exact fun q hq => hq
    | cancel i h1 h2 h3 heq => subst heq; exact fun q hq => hq
  · cases hstep with
    | submit h1 heq =>
      subst heq; intro hd; rcases hd with hd | hd <;> exact absurd rfl hd
    | start i h1 h2 h3 heq =>
      subst heq; intro hd; rcases hd with hd | hd <;> exact absurd rfl hd
    | earlyReturn i h1 h2 heq =>
      subst heq; intro hd; rcases hd with hd | hd <;> exact absurd rfl hd
    | beginOracle i h1 h2 heq =>
      subst heq; intro hd; rcases hd with hd | hd <;> exact absurd rfl hd
    | endOracle i p h1 h2 heq =>
      subst heq; intro hd; rcases hd with hd | hd <;> exact absurd rfl hd
    | claimWin i p h1 h2 h3 heq =>
      intro _
      have hnone : s.correct_password = none := by
        cases hc : s.correct_password with
        | none => rfl
        | some q =>
          have := H.found_winner
          rw [h3, hc] at this
          exact Bool.noConfusion this
      subst heq
      exact ⟨h3, rfl, hnone, i, p, h1, h2, rfl, get_set_self _ _ _ _ h1⟩
    | claimLost i h1 h2 heq =>
      subst heq; intro hd; rcases hd with hd | hd <;> exact absurd rfl hd
    | logAttempt i p h1 h2 heq =>
      subst heq; intro hd; rcases hd with hd | hd <;> exact absurd rfl hd
    | logError i p e h1 h2 heq =>
      subst heq; intro hd; rcases hd with hd | hd <;> exact absurd rfl hd
    | cancel i h1 h2 h3 heq =>
      subst heq; intro hd; rcases hd with hd | hd <;> exact absurd rfl hd

theorem spec_C4_witness :
    exMid.found_password = false ∧ exClaimed.found_password = true
    ∧ exMid.correct_password = none ∧ exClaimed.correct_password = some "000B" := by
  have h := (spec_C4 exOracle 2 exCands exMid exClaimed exReach_mid exStep_claim).2.2.1
    (Or.inl (by decide))
  exact ⟨h.1, h.2.1, h.2.2.1, by decide⟩

/-- Claim C5: whenever a winner has been claimed, the printed output holds
exactly one winning line — line 38's direct `print`, which bypasses the
`log` suppression check — and it names the recorded winner. -/
theorem spec_C5 (oracle : String → Outcome) (maxW : Nat) (cands : List String)
    (s : RunState) (hs : Reachable oracle maxW cands s)
    (hf : s.found_password = true) :
    ∃ p, s.correct_password = some p
      ∧ s.output.filter LogLine.isWin = [LogLine.win username p] := by
  have H := reachable_inv hs
  have hw : s.correct_password.isSome = true := by
    rw [← H.found_winner]; exact hf
  obtain ⟨p, hp⟩ := Option.isSome_iff_exists.mp hw
  exact ⟨p, hp, by rw [H.win_out, hp]⟩

theorem spec_C5_witness :
    ∃ p, exFinal.correct_password = some p
      ∧ exFinal.output.filter LogLine.isWin = [LogLine.win username p] :=
  spec_C5 exOracle 2 exCands exFinal exReach_final (by decide)

/-- Claim C6: once a winner is claimed, nothing further is ever printed:
every later `log` call (the Rejected/Error-path messages) checks the flag
under the same lock and is suppressed, so the output after the claim is
frozen while the racing workers keep stepping to completion. -/
theorem spec_C6 (oracle : String → Outcome) (maxW : Nat) (cands : List String)
    (s t : RunState) (hs : Reachable oracle maxW cands s)
    (hf : s.found_password = true) (hst : Steps oracle maxW cands s t) :
    t.output = s.output ∧ t.found_password = true :=
  ⟨output_frozen hst hf, found_mono hst hf⟩

theorem spec_C6_witness :
    exFinal.output = exClaimed.output ∧ exFinal.found_password = true :=
  spec_C6 exOracle 2 exCands exClaimed exFinal exReach_claimed (by decide)
    exSteps_claimed_final

/-- Claim C7: an oracle invocation that raised is handled inside that
candidate's task: the task's next step logs the Error line (unless already
suppressed) and returns `False`; no other transition is possible for that
task, the exception reaches no other task and no scheduler state, and the
candidate is never retried (its invocation count stays 1 forever). -/
theorem spec_C7 (oracle : String → Outcome) (maxW : Nat) (cands : List String)
    (s : RunState) (i : Nat) (p e : String)
    (hs : Reachable oracle maxW cands s)
    (hph : s.phases[i]? = some (Phase.gotOutcome (Outcome.error e)))
    (hpc : cands[i]? = some p) :
    (Step oracle maxW cands s
      { s with output :=
                 s.output ++ (if s.found_password then [] else [LogLine.errorWith p e])
               phases := s.phases.set i (Phase.done false true) })
    ∧ (∀ t, Step oracle maxW cands s t →
        t.phases[i]? = some (Phase.gotOutcome (Outcome.error e))
        ∨ t.phases[i]? = some (Phase.done false true))
    ∧ s.counts[i]? = some 1
    ∧ (∀ t, Steps oracle maxW cands s t → t.counts[i]? = some 1) := by
  have H := reachable_inv hs
  refine ⟨Step.logError s _ i p e hph hpc rfl, ?_, ?_, ?_⟩
  · intro t hstep
    cases hstep with
    | submit h1 heq => subst heq; exact Or.inl hph
    | start j h1 h2 h3 heq => subst heq; exact Or.inl (set_preserve_at h2 hph (by simp))
    | earlyReturn j h1 h2 heq => subst heq; exact Or.inl (set_preserve_at h1 hph (by simp))
    | beginOracle j h1 h2 heq => subst heq; exact Or.inl (set_preserve_at h1 hph (by simp))
    | endOracle j q h1 h2 heq => subst heq; exact Or.inl (set_preserve_at h1 hph (by simp))
    | claimWin j q h1 h2 h3 heq => subst heq; exact Or.inl (set_preserve_at h1 hph (by simp))
    | claimLost j h1 h2 heq => subst heq; exact Or.inl (set_preserve_at h1 hph (by simp))
    | logAttempt j q h1 h2 heq => subst heq; exact Or.inl (set_preserve_at h1 hph (by simp))
    | logError j q e2 h1 h2 heq =>
      subst heq
      by_cases hji : j = i
      · subst hji; exact Or.inr (get_set_self _ _ _ _ h1)
      · exact Or.inl (by rw [get_set_other _ _ _ _ hji]; exact hph)
    | cancel j h1 h2 h3 heq => subst heq; exact Or.inl (set_preserve_at h3 hph (by simp))
  · simpa [Phase.invoked] using
      H.count_flag i (Phase.gotOutcome (Outcome.error e)) hph
  · intro t ht
    have Ht := reachable_inv (reachable_steps hs ht)
    obtain ⟨ph, hph_t, hinv⟩ := invoked_mono ht i ⟨_, hph, rfl⟩
    have hcf := Ht.count_flag i ph hph_t
    rw [hinv] at hcf
    simpa using hcf

theorem spec_C7_witness :
    (Step errOracle 1 errCands errMid
      { errMid with
          output := errMid.output ++
            (if errMid.found_password then [] else [LogLine.errorWith "X" "boom"]),
          phases := errMid.phases.set 0 (Phase.done false true) })
    ∧ errMid.counts[0]? = some 1 := by
  have h := spec_C7 errOracle 1 errCands errMid 0 "X" "boom" errReach_mid
    (by decide) (by decide)
  exact ⟨h.1, h.2.2.1⟩

/-- Claim C8: a task that begins `try_password` with the flag already up
(line 26) can only return immediately with `False`; issuing the oracle call
is impossible then or ever after for that task, so its invocation count is 0
and remains 0 in every later state. -/
theorem spec_C8 (oracle : String → Outcome) (maxW : Nat) (cands : List String)
    (s : RunState) (i : Nat) (hs : Reachable oracle maxW cands s)
    (hph : s.phases[i]? = some Phase.started)
    (hf : s.found_password = true) :
    (Step oracle maxW cands s
      { s with phases := s.phases.set i (Phase.done false false) })
    ∧ (∀ t, Step oracle maxW cands s t →
        t.phases[i]? = some Phase.started
        ∨ t.phases[i]? = some (Phase.done false false))
    ∧ s.counts[i]? = some 0
    ∧ (∀ t, Steps oracle maxW cands s t → t.counts[i]? = some 0) := by
  have H := reachable_inv hs
  refine ⟨Step.earlyReturn s _ i hph hf rfl, ?_, ?_, ?_⟩
  · intro t hstep
    exact (skip_inv_step hstep i hf (Or.inl hph)).2
  · simpa [Phase.invoked] using H.count_flag i Phase.started hph
  · intro t ht
    have hc := skip_inv_steps ht i hf (Or.inl hph)
    have Ht := reachable_inv (reachable_steps hs ht)
    rcases hc.2 with hpt | hpt
    · simpa [Phase.invoked] using Ht.count_flag i Phase.started hpt
    · simpa [Phase.invoked] using Ht.count_flag i (Phase.done false false) hpt

theorem spec_C8_witness :
    (Step exOracle 2 exCands exLate
      { exLate with phases := exLate.phases.set 0 (Phase.done false false) })
    ∧ exLate.counts[0]? = some 0 := by
  have h := spec_C8 exOracle 2 exCands exLate 0 exReach_late (by decide) (by decide)
  exact ⟨h.1, h.2.2.1⟩

/-- Claim C9: in every reachable state the number of in-flight oracle calls
(and more generally of tasks occupying a pool thread) never exceeds the
fixed pool bound, and the program's configured bound `max_workers` is 10. -/
theorem spec_C9 :
    (∀ (oracle : String → Outcome) (maxW : Nat) (cands : List String) (s : RunState),
      Reachable oracle maxW cands s →
      inOracleCount s.phases ≤ maxW ∧ activeCount s.phases ≤ maxW)
    ∧ max_workers = 10 := by
  refine ⟨?_, rfl⟩
  intro oracle maxW cands s hs
  have H := reachable_inv hs
  have hmono : inOracleCount s.phases ≤ activeCount s.phases := by
    unfold inOracleCount activeCount
    refine List.countP_mono_left ?_
    intro a _ ha
    simp only [decide_eq_true_eq] at ha
    subst ha
    rfl
  exact ⟨le_trans hmono H.active_le, H.active_le⟩

theorem spec_C9_witness :
    inOracleCount (initState exCands).phases ≤ max_workers ∧ max_workers = 10 :=
  ⟨(spec_C9.1 exOracle max_workers exCands (initState exCands)
      Relation.ReflTransGen.refl).1, spec_C9.2⟩

set_option maxRecDepth 4000 in
/-- Claim C10: `run` creates one pending task per entry of `password_list`,
in list order, before the completion-observing loop acts: at the start
nothing is submitted and there is exactly one slot per candidate; the
comprehension submits one future at a time, at most once per entry, and a
submission step is enabled whenever entries remain — with no condition on
the shared flag, so no candidate is skipped at submission time — while a
cancellation (the loop's reaction to an observed completion) can only
happen once every entry has been submitted. -/
theorem spec_C10 :
    ((initState password_list).phases = password_list.map fun _ => Phase.notStarted)
    ∧ (initState password_list).submitted = 0
    ∧ (∀ (oracle : String → Outcome) (maxW : Nat) (s : RunState),
        Reachable oracle maxW password_list s → s.submitted ≤ password_list.length)
    ∧ (∀ (oracle : String → Outcome) (maxW : Nat) (cands : List String) (s : RunState),
        s.submitted < cands.length →
        Step oracle maxW cands s { s with submitted := s.submitted + 1 })
    ∧ (∀ (oracle : String → Outcome) (maxW : Nat) (cands : List String) (s t : RunState),
        Step oracle maxW cands s t →
        t.submitted = s.submitted ∨ t.submitted = s.submitted + 1)
    ∧ (∀ (oracle : String → Outcome) (maxW : Nat) (cands : List String)
        (s t : RunState) (i : Nat),
        Step oracle maxW cands s t → s.phases[i]? ≠ some Phase.cancelled →
        t.phases[i]? = some Phase.cancelled → s.submitted = cands.length) := by
  refine ⟨rfl, rfl, ?_, ?_, ?_, ?_⟩
  · intro oracle maxW s hs
    exact (reachable_inv hs).sub_le
  · intro oracle maxW cands s h
    exact Step.submit s _ h rfl
  · intro oracle maxW cands s t hstep
    cases hstep with
    | submit h1 heq => subst heq; exact Or.inr rfl
    | start i h1 h2 h3 heq => subst heq; exact Or.inl rfl
    | earlyReturn i h1 h2 heq => subst heq; exact Or.inl rfl
    | beginOracle i h1 h2 heq => subst heq; exact Or.inl rfl
    | endOracle i p h1 h2 heq => subst heq; exact Or.inl rfl
    | claimWin i p h1 h2 h3 heq => subst heq; exact Or.inl rfl
    | claimLost i h1 h2 heq => subst heq; exact Or.inl rfl
    | logAttempt i p h1 h2 heq => subst heq; exact Or.inl rfl
    | logError i p e h1 h2 heq => subst heq; exact Or.inl rfl
    | cancel i h1 h2 h3 heq => subst heq; exact Or.inl rfl
  · intro oracle maxW cands s t i hstep hne ht
    cases hstep with
    | submit h1 heq => subst heq; exact absurd ht hne
    | start j h1 h2 h3 heq =>
      subst heq
      rcases set_cases h2 ht with ⟨rfl, hv⟩ | ⟨hni, hi'⟩
      · exact Phase.noConfusion hv
      · exact absurd hi' hne
    | earlyReturn j h1 h2 heq =>
      subst heq
      rcases set_cases h1 ht with ⟨rfl, hv⟩ | ⟨hni, hi'⟩
      · exact Phase.noConfusion hv
      · exact absurd hi' hne
    | beginOracle j h1 h2 heq =>
      subst heq
      rcases set_cases h1 ht with ⟨rfl, hv⟩ | ⟨hni, hi'⟩
      · exact Phase.noConfusion hv
      · exact absurd hi' hne
    | endOracle j p h1 h2 heq =>
      subst heq
      rcases set_cases h1 ht with ⟨rfl, hv⟩ | ⟨hni, hi'⟩
      · exact Phase.noConfusion hv
      · exact absurd hi' hne
    | claimWin j p h1 h2 h3 heq =>
      subst heq
      rcases set_cases h1 ht with ⟨rfl, hv⟩ | ⟨hni, hi'⟩
      · exact Phase.noConfusion hv
      · exact absurd hi' hne
    | claimLost j h1 h2 heq =>
      subst heq
      rcases set_cases h1 ht with ⟨rfl, hv⟩ | ⟨hni, hi'⟩
      · exact Phase.noConfusion hv
      · exact absurd hi' hne
    | logAttempt j p h1 h2 heq =>
      subst heq
      rcases set_cases h1 ht with ⟨rfl, hv⟩ | ⟨hni, hi'⟩
      · exact Phase.noConfusion hv
      · exact absurd hi' hne
    | logError j p e h1 h2 heq =>
      subst heq
      rcases set_cases h1 ht with ⟨rfl, hv⟩ | ⟨hni, hi'⟩
      · exact Phase.noConfusion hv
      · exact absurd hi' hne
    | cancel j h1 h2 h3 heq => exact h1

theorem spec_C10_witness :
    (initState password_list).submitted = 0
    ∧ (initState password_list).submitted ≤ password_list.length
    ∧ Step exOracle 2 exCands (initState exCands)
        { initState exCands with submitted := (initState exCands).submitted + 1 } := by
  refine ⟨spec_C10.2.1, ?_, ?_⟩
  · exact spec_C10.2.2.1 exOracle 2 (initState password_list) Relation.ReflTransGen.refl
  · exact spec_C10.2.2.2.1 exOracle 2 exCands (initState exCands) (by decide)

end BruteForce
